import Mathlib

/-!
# Verification of the idempotent log-merge engine (`src/merge_dshield_logs.py`)

Shallow embedding of the merge engine: the chunked output writer
(`ChunkWriter`), the merge state store (`load_state` / `save_state` /
the duplicate check), and the merge driver (`process`).

Modeling conventions:
* Byte strings are `List Nat`; UTF-8 encoding of an already-decoded line is
  the identity on this byte-level model.
* The output directory is an association list from chunk index to file
  content (`FS`).  `open(path, "wb")` creates/truncates the file to `[]`;
  `open(path, "ab")` leaves it unchanged; writes are modeled as durable
  (the flush/fsync calls of the source make them so at every rotate/close).
* Filesystem metadata reads (`os.stat`), input discovery and gzip line
  iteration are external collaborators; a `World` records their outcomes:
  `stats` gives `file_signature`'s result per path (`none` models
  `FileNotFoundError`), `reads` gives the decompressed text yielded before
  the iteration either completes (`ReadOutcome.ok`) or raises
  (`osError` for `OSError` subclasses, which line 167 catches;
  `eofError` for exceptions such as `EOFError`, which it does not).
* The state file is a single document slot (`StateFiles`); reading it can
  yield `missing` (FileNotFoundError), `ioError` (another OSError),
  `badUtf8` (UnicodeDecodeError), `badJson` (JSONDecodeError) or a parsed
  document, matching the exception cases of `load_state`.
-/

namespace DshieldMerge

/-- A byte string (the model of Python `bytes` / decoded text). -/
abbrev Bytes := List Nat

/-- The newline byte `"\n"`. -/
def nl : Nat := 10

/-- Association-list lookup; the first binding wins (Python `dict` lookup). -/
def alookup {α β : Type} [DecidableEq α] : List (α × β) → α → Option β
  | [], _ => none
  | kv :: rest, a => if kv.1 = a then some kv.2 else alookup rest a

/-- Association-list update (Python `d[k] = v`): replaces the binding in
place if present, otherwise appends it, as a Python dict does. -/
def aset {α β : Type} [DecidableEq α] : List (α × β) → α → β → List (α × β)
  | [], a, b => [(a, b)]
  | kv :: rest, a, b => if kv.1 = a then (a, b) :: rest else kv :: aset rest a b

/-- The output directory: chunk index ↦ chunk file content. -/
abbrev FS := List (Nat × Bytes)

/-- Content of the chunk file at index `i` (`none`: no such file). -/
def fsGet (fs : FS) (i : Nat) : Option Bytes := alookup fs i

/-- Create or overwrite the chunk file at index `i`. -/
def fsSet (fs : FS) (i : Nat) (c : Bytes) : FS := aset fs i c

/-- Append bytes to the (open) chunk file at index `i`. -/
def fsAppend (fs : FS) (i : Nat) (d : Bytes) : FS :=
  fsSet fs i (((fsGet fs i).getD []) ++ d)

/-- `CHUNK_BYTES = 50 * 1024 * 1024` (line 26). -/
def CHUNK_BYTES : Nat := 50 * 1024 * 1024

/-- The mutable fields of `ChunkWriter` (lines 87–94): current chunk index,
byte counter for the current chunk, and the configured size bound.
The directory and filename prefix are fixed throughout a run and are
implicit in the single-directory `FS` model. -/
structure ChunkWriter where
  index : Nat
  bytes_in_chunk : Nat
  chunk_bytes : Nat
deriving DecidableEq

/-- `ChunkWriter.__init__` / `_open_existing_or_new` (lines 88–103):
`mode = "ab" if os.path.exists(path) else "wb"`, then
`bytes_in_chunk = os.path.getsize(path) if os.path.exists(path) else 0`.
An existing file is opened for append and left unchanged, its size becoming
the counter; otherwise `"wb"` creates the file empty. -/
def open_existing_or_new (fs : FS) (start_index chunk_bytes : Nat) :
    ChunkWriter × FS :=
  match fsGet fs start_index with
  | some c => (⟨start_index, c.length, chunk_bytes⟩, fs)
  | none => (⟨start_index, 0, chunk_bytes⟩, fsSet fs start_index [])

/-- `ChunkWriter.rotate` (lines 115–121): flush+fsync+close the current
chunk (durable in this model), increment the index, and `open(..., "wb")`
a brand-new file for the new index. -/
def ChunkWriter.rotate (w : ChunkWriter) (fs : FS) : ChunkWriter × FS :=
  (⟨w.index + 1, 0, w.chunk_bytes⟩, fsSet fs (w.index + 1) [])

/-- `ChunkWriter.write_line` (lines 108–113): rotate first when
`bytes_in_chunk + len(data) > chunk_bytes and bytes_in_chunk > 0`,
then append `data` to the current chunk and bump the counter. -/
def ChunkWriter.write_line (w : ChunkWriter) (fs : FS) (data : Bytes) :
    ChunkWriter × FS :=
  let s :=
    if w.chunk_bytes < w.bytes_in_chunk + data.length ∧ 0 < w.bytes_in_chunk
    then w.rotate fs else (w, fs)
  (⟨s.1.index, s.1.bytes_in_chunk + data.length, s.1.chunk_bytes⟩,
   fsAppend s.2 s.1.index data)

/-- A sequence of `write_line` calls. -/
def runWriter (w : ChunkWriter) (fs : FS) (ds : List Bytes) : ChunkWriter × FS :=
  ds.foldl (fun s d => ChunkWriter.write_line s.1 s.2 d) (w, fs)

/-- A writer run started on an empty output directory at index 1
(the default start index, line 76). -/
def runFresh (B : Nat) (ds : List Bytes) : ChunkWriter × FS :=
  let s := open_existing_or_new [] 1 B
  runWriter s.1 s.2 ds

/-- Decimal digits, least significant first, with explicit fuel (the fuel
only makes the recursion structural; `digitsRev` supplies enough). -/
def digitsRevGo : Nat → Nat → List Nat
  | 0, _ => []
  | _ + 1, 0 => []
  | n + 1, fuel + 1 => ((n + 1) % 10) :: digitsRevGo ((n + 1) / 10) fuel

/-- Decimal digits of `n`, least significant first (empty for 0). -/
def digitsRev (n : Nat) : List Nat := digitsRevGo n n

/-- Decimal digits of `n`, most significant first (empty for 0). -/
def digits (n : Nat) : List Nat := (digitsRev n).reverse

/-- The digit string of the filename `f"{prefix}{idx:05d}.log"` (line 106):
decimal digits zero-padded to width 5 (wider numbers keep all digits). -/
def pad5 (n : Nat) : List Nat :=
  List.replicate (5 - (digits n).length) 0 ++ digits n

/-- `int(...)` on a digit string (line 81). -/
def fromDigits (ds : List Nat) : Nat := ds.foldl (fun a d => 10 * a + d) 0

/-- Lexicographic strict order on digit strings, as Python compares the
glob-returned filenames (which differ only in their digit runs). -/
def lexLt : List Nat → List Nat → Bool
  | [], [] => false
  | [], _ :: _ => true
  | _ :: _, [] => false
  | a :: as, b :: bs => if a < b then true else if a = b then lexLt as bs else false

/-- `sorted(existing)[-1]`: the lexicographically largest name. -/
def lexMaxList : List (List Nat) → Option (List Nat)
  | [] => none
  | nm :: nms => some (nms.foldl (fun acc x => if lexLt acc x then x else acc) nm)

/-- `next_output_index` (lines 72–85): glob the existing chunk filenames,
sort them, take the last, parse its zero-padded index, return
`max(1, idx)`; return 1 when the directory holds no chunk files.  In this
model every chunk filename is well formed, so the broad `except` fallback
(line 83) cannot trigger. -/
def next_output_index (fs : FS) : Nat :=
  match lexMaxList (fs.map fun q => pad5 q.1) with
  | none => 1
  | some nm => max 1 (fromDigits nm)

/-- Numeric maximum of the chunk indices present in the directory. -/
def maxKey (fs : FS) : Nat :=
  match fs with
  | [] => 0
  | q :: rest => (rest.map fun x => x.1).foldl max q.1

/-- The greedy span partition realized by repeated `write_line`: `cur` is
the content of the current chunk; a span `d` opens a new group exactly when
`write_line` would rotate first. -/
def chunksC (B : Nat) : Bytes → List Bytes → List Bytes
  | cur, [] => [cur]
  | cur, d :: ds =>
    if B < cur.length + d.length ∧ 0 < cur.length
    then cur :: chunksC B d ds
    else chunksC B (cur ++ d) ds

/-- The last group of `chunksC` (the content of the still-open chunk). -/
def lastCur (B : Nat) : Bytes → List Bytes → Bytes
  | cur, [] => cur
  | cur, d :: ds =>
    if B < cur.length + d.length ∧ 0 < cur.length
    then lastCur B d ds
    else lastCur B (cur ++ d) ds

/-- `file_signature` result (lines 58–61): `(st.st_ino, st.st_size,
int(st.st_mtime))`. -/
structure Sig where
  ino : Nat
  size : Nat
  mtime : Nat
deriving DecidableEq

/-- The state document `{"processed": {...}, "last_processed_mtime": n}`. -/
structure StateDoc where
  processed : List (String × Sig)
  last_processed_mtime : Nat
deriving DecidableEq

/-- The empty document returned when the state file is missing or its
JSON is malformed (lines 39 and 47). -/
def emptyState : StateDoc := ⟨[], 0⟩

/-- Outcome of opening and JSON-parsing the state file, following the
exception cases around `json.load` in `load_state` (lines 34–47):
`missing` = `FileNotFoundError`; `ioError` = any other `OSError` from
`open`/read (e.g. `PermissionError`); `badUtf8` = `UnicodeDecodeError`
(bytes not decodable as UTF-8); `badJson` = `json.JSONDecodeError`
(decodable text that is not valid JSON); `ok` = a parsed document. -/
inductive StateFileRead where
  | missing
  | ioError
  | badUtf8
  | badJson
  | ok (doc : StateDoc)
deriving DecidableEq

/-- Uncaught exceptions that abort the run. -/
inductive RunErr where
  | loadOSError
  | loadUnicodeError
  | readEOFError
  | saveError
deriving DecidableEq

/-- `load_state` (lines 34–47).  It catches exactly `FileNotFoundError`
(→ empty document) and `json.JSONDecodeError` (→ rename the bad file to
`STATE_FILE + ".bak"`, best effort — `renameOk` tells whether `os.rename`
succeeded; proceed either way with the empty document).  Every other
exception propagates.  The returned `Bool` records whether the `.bak`
backup now exists. -/
def load_state : StateFileRead → Bool → Except RunErr (StateDoc × Bool)
  | StateFileRead.missing, _ => Except.ok (emptyState, false)
  | StateFileRead.ioError, _ => Except.error RunErr.loadOSError
  | StateFileRead.badUtf8, _ => Except.error RunErr.loadUnicodeError
  | StateFileRead.badJson, renameOk => Except.ok (emptyState, renameOk)
  | StateFileRead.ok doc, _ => Except.ok (doc, false)

/-- The durable home of the state document: the temporary path
`STATE_FILE + ".tmp"` and the final path `STATE_FILE`. -/
structure StateFiles where
  tmp : Option StateDoc
  final : Option StateDoc
deriving DecidableEq

/-- `save_state` (lines 49–56): write the document to the temporary path,
flush and fsync it (durable in this model), then `os.replace` the final
path with the temporary one. -/
def save_state (doc : StateDoc) (sf : StateFiles) : StateFiles :=
  let written : StateFiles := { sf with tmp := some doc }
  { tmp := none, final := written.tmp }

/-- The duplicate check of the driver (lines 152–157):
`prev = processed.get(path)` and
`prev and prev["ino"] == ino and prev["size"] == size and prev["mtime"] == mtime`. -/
def isDuplicate (processed : List (String × Sig)) (path : String) (sig : Sig) :
    Bool :=
  match alookup processed path with
  | some prev => prev.ino == sig.ino && prev.size == sig.size && prev.mtime == sig.mtime
  | none => false

/-- How a gzip line iteration over one input ends: `ok` = runs to
completion; `osError` = raises an `OSError` subclass (caught at line 167,
e.g. `BadGzipFile`); `eofError` = raises an exception that is not an
`OSError` (e.g. `EOFError` from a truncated gzip stream), which the
`except OSError` handler does not catch. -/
inductive ReadOutcome where
  | ok
  | osError
  | eofError
deriving DecidableEq

/-- Python text-mode line iteration (`for line in gz`): split the decoded
stream after every newline; a final fragment without a newline is yielded
as-is; nothing is yielded from an empty stream.  `acc` holds the bytes of
the current line in reverse. -/
def splitLinesAux : Bytes → Bytes → List Bytes
  | acc, [] => if acc.isEmpty then [] else [acc.reverse]
  | acc, c :: rest =>
    if c = nl then (c :: acc).reverse :: splitLinesAux [] rest
    else splitLinesAux (c :: acc) rest

/-- Lines yielded by iterating over decoded content. -/
def splitLines (content : Bytes) : List Bytes := splitLinesAux [] content

/-- Line normalization (lines 163–165):
`if not line.endswith("\n"): line = line + "\n"`. -/
def normalizeLine (line : Bytes) : Bytes :=
  if line.getLast? = some nl then line else line ++ [nl]

/-- The in-memory state of one driver run (lines 133–144):
the `processed` map, `last_mtime_seen`, the writer, the output directory,
the merged-file counter, and the warnings printed to stderr. -/
structure DriverState where
  processed : List (String × Sig)
  last_mtime_seen : Nat
  writer : ChunkWriter
  fs : FS
  processed_count : Nat
  warnings : List String
deriving DecidableEq

/-- Write one input's decoded content through the writer: each yielded line
is normalized and passed to `write_line` (lines 162–166). -/
def writeLines (w : ChunkWriter) (fs : FS) (content : Bytes) :
    ChunkWriter × FS :=
  runWriter w fs ((splitLines content).map normalizeLine)

/-- The body of the per-input loop (lines 145–175).  `stats path` is
`file_signature(path)`'s outcome, `reads path` the decoded content the
gzip iterator yields before finishing with the given `ReadOutcome`.
`FileNotFoundError` on stat skips the input; a recognized duplicate only
raises the watermark; otherwise the yielded lines are written, and the
input is marked processed only when iteration completed — an `OSError`
is caught with a warning, any other exception propagates. -/
def processInput (stats : String → Option Sig)
    (reads : String → Bytes × ReadOutcome) (s : DriverState) (path : String) :
    Except RunErr DriverState :=
  match stats path with
  | none => Except.ok s
  | some sig =>
    if isDuplicate s.processed path sig then
      Except.ok { s with last_mtime_seen := max s.last_mtime_seen sig.mtime }
    else
      let wf := writeLines s.writer s.fs (reads path).1
      match (reads path).2 with
      | ReadOutcome.osError =>
        Except.ok { s with writer := wf.1, fs := wf.2,
                           warnings := s.warnings ++ [path] }
      | ReadOutcome.eofError => Except.error RunErr.readEOFError
      | ReadOutcome.ok =>
        Except.ok { s with writer := wf.1, fs := wf.2,
                           processed := aset s.processed path sig,
                           last_mtime_seen := max s.last_mtime_seen sig.mtime,
                           processed_count := s.processed_count + 1 }

/-- The driver's `for path in inputs:` loop; an uncaught exception from an
iteration aborts the whole loop. -/
def runInputs (stats : String → Option Sig)
    (reads : String → Bytes × ReadOutcome) :
    DriverState → List String → Except RunErr DriverState
  | s, [] => Except.ok s
  | s, p :: ps =>
    match processInput stats reads s p with
    | Except.ok s' => runInputs stats reads s' ps
    | Except.error e => Except.error e

/-- Everything outside the program that one run observes:
the state-file read outcome and whether a quarantine rename would succeed,
the discovered input paths (in mtime order, line 69), their signatures and
contents, the output directory, the state-file slots, and whether the
final `save_state` succeeds (directory creation / write / fsync /
replace). -/
structure World where
  loadRead : StateFileRead
  renameOk : Bool
  inputs : List String
  stats : String → Option Sig
  reads : String → Bytes × ReadOutcome
  fs : FS
  stateFiles : StateFiles
  saveOk : Bool

/-- The observable outcome of a successful run. -/
structure RunResult where
  state : StateDoc
  fs : FS
  stateFiles : StateFiles
  merged_count : Nat
  warnings : List String
  saves : Nat
deriving DecidableEq

/-- `process` (lines 130–185): load the state, return early when no
inputs matched (line 137–139 — note: without saving), otherwise open the
writer at `next_output_index`, run the per-input loop, close the writer
(a flush/fsync, contentless in this model) and persist the state once. -/
def process (w : World) : Except RunErr RunResult :=
  match load_state w.loadRead w.renameOk with
  | Except.error e => Except.error e
  | Except.ok (st, _) =>
    if w.inputs.isEmpty then
      Except.ok ⟨st, w.fs, w.stateFiles, 0, [], 0⟩
    else
      let opened := open_existing_or_new w.fs (next_output_index w.fs) CHUNK_BYTES
      match runInputs w.stats w.reads
          ⟨st.processed, st.last_processed_mtime, opened.1, opened.2, 0, []⟩
          w.inputs with
      | Except.error e => Except.error e
      | Except.ok fin =>
        if w.saveOk then
          Except.ok ⟨⟨fin.processed, fin.last_mtime_seen⟩, fin.fs,
                     save_state ⟨fin.processed, fin.last_mtime_seen⟩ w.stateFiles,
                     fin.processed_count, fin.warnings, 1⟩
        else Except.error RunErr.saveError

/-- The writer's byte counter agrees with the on-disk size of the current
chunk file (single-writer assumption: nothing else touches the output
directory during a run). -/
def counterAccurate (w : ChunkWriter) (fs : FS) : Prop :=
  Option.map List.length (fsGet fs w.index) = some w.bytes_in_chunk

/-! Concrete worlds used to evaluate the model on explicit inputs. -/

/-- A signature, as recorded for a merged file. -/
def sig1 : Sig := ⟨1, 2, 5⟩

/-- A different signature at the same path (rotation reuse). -/
def sig2 : Sig := ⟨1, 3, 6⟩

/-- A first run over one rotated log whose gzip read yields one line
`"A\n"` and then raises an `OSError`: empty state, empty output dir. -/
def W1 : World :=
  { loadRead := StateFileRead.missing, renameOk := true,
    inputs := ["dshield.log.1.gz"],
    stats := fun p => if p = "dshield.log.1.gz" then some ⟨7, 40, 100⟩ else none,
    reads := fun _ => ([65, 10], ReadOutcome.osError),
    fs := [], stateFiles := ⟨none, none⟩, saveOk := true }

/-- The second run after `W1`, with no input file added, removed or
modified: same inputs, signatures and contents; the state file and output
directory are exactly what the first run left behind. -/
def W1b : World :=
  { W1 with loadRead := StateFileRead.ok ⟨[], 0⟩, fs := [(1, [65, 10])],
            stateFiles := ⟨none, some ⟨[], 0⟩⟩ }

/-- A run over one input whose gzip stream is truncated: the iterator
yields one line and then raises `EOFError`. -/
def W6 : World :=
  { loadRead := StateFileRead.missing, renameOk := true,
    inputs := ["dshield.log.1.gz"],
    stats := fun _ => some ⟨7, 40, 100⟩,
    reads := fun _ => ([65, 10], ReadOutcome.eofError),
    fs := [], stateFiles := ⟨none, none⟩, saveOk := true }

/-- A run in which input discovery matches nothing. -/
def W8 : World :=
  { loadRead := StateFileRead.missing, renameOk := true, inputs := [],
    stats := fun _ => none, reads := fun _ => ([], ReadOutcome.ok),
    fs := [], stateFiles := ⟨none, none⟩, saveOk := true }

/-- Signatures for the rotation-reuse scenario: the path was merged under
`sig1`, the file now at that path carries `sig2`. -/
def statsW : String → Option Sig := fun p => if p = "a.gz" then some sig2 else none

/-- The new file's content: one line `"B\n"`, read to completion. -/
def readsW : String → Bytes × ReadOutcome := fun _ => ([66, 10], ReadOutcome.ok)

/-- Driver state recording `"a.gz"` as previously merged under `sig1`. -/
def sW : DriverState := ⟨[("a.gz", sig1)], 0, ⟨1, 0, 100⟩, [(1, [])], 0, []⟩

/-- The state document after fully merging the one rotated log of `W9`. -/
def st9 : StateDoc := ⟨[("dshield.log.1.gz", ⟨7, 40, 100⟩)], 100⟩

/-- A first run over one rotated log that reads to completion. -/
def W9 : World :=
  { loadRead := StateFileRead.missing, renameOk := true,
    inputs := ["dshield.log.1.gz"],
    stats := fun p => if p = "dshield.log.1.gz" then some ⟨7, 40, 100⟩ else none,
    reads := fun _ => ([65, 10], ReadOutcome.ok),
    fs := [], stateFiles := ⟨none, none⟩, saveOk := true }

/-- The second run after `W9`, with nothing changed on the input side. -/
def W9b : World :=
  { W9 with loadRead := StateFileRead.ok st9, fs := [(1, [65, 10])],
            stateFiles := ⟨none, some st9⟩ }

/-- The observable outcome of the run over `W9`. -/
def R9 : RunResult := ⟨st9, [(1, [65, 10])], ⟨none, some st9⟩, 1, [], 1⟩

/-! ## Association lists -/

theorem alookup_aset {α β : Type} [DecidableEq α] (l : List (α × β)) (a : α)
    (b : β) (c : α) :
    alookup (aset l a b) c = if a = c then some b else alookup l c := by
  induction l with
  | nil =>
    by_cases h : a = c <;> simp [aset, alookup, h]
  | cons kv rest ih =>
    by_cases h1 : kv.1 = a
    · have e1 : aset (kv :: rest) a b = (a, b) :: rest := by simp [aset, h1]
      rw [e1]
      by_cases h2 : a = c
      · simp [alookup, h2]
      · have h3 : ¬ kv.1 = c := by rw [h1]; exact h2
        simp [alookup, h2, h3]
    · have e1 : aset (kv :: rest) a b = kv :: aset rest a b := by simp [aset, h1]
      rw [e1]
      by_cases h2 : kv.1 = c
      · have h3 : ¬ a = c := fun he => h1 (h2.trans he.symm)
        simp [alookup, h2, h3]
      · simp [alookup, h2, ih]

theorem alookup_isSome_of_mem {α β : Type} [DecidableEq α]
    (l : List (α × β)) (a : α) (h : a ∈ l.map Prod.fst) :
    (alookup l a).isSome := by
  induction l with
  | nil => simp at h
  | cons kv rest ih =>
    by_cases h1 : kv.1 = a
    · simp [alookup, h1]
    · simp only [List.map_cons, List.mem_cons] at h
      rcases h with h | h
      · exact absurd h.symm h1
      · simp [alookup, h1, ih h]

theorem mem_of_alookup_isSome {α β : Type} [DecidableEq α]
    (l : List (α × β)) (a : α) (h : (alookup l a).isSome) :
    a ∈ l.map Prod.fst := by
  induction l with
  | nil => simp [alookup] at h
  | cons kv rest ih =>
    by_cases h1 : kv.1 = a
    · simp [h1.symm]
    · simp only [alookup, h1, if_false] at h
      simp [ih h]

theorem fsGet_fsSet (fs : FS) (i : Nat) (c : Bytes) (j : Nat) :
    fsGet (fsSet fs i c) j = if i = j then some c else fsGet fs j :=
  alookup_aset fs i c j

/-! ## Decimal digits and the lexicographic filename order -/

theorem digitsRevGo_fuel (f1 : Nat) : ∀ (n f2 : Nat), n ≤ f1 → n ≤ f2 →
    digitsRevGo n f1 = digitsRevGo n f2 := by
  induction f1 with
  | zero =>
    intro n f2 h1 _
    interval_cases n
    cases f2 <;> rfl
  | succ f ih =>
    intro n f2 h1 h2
    match n, f2 with
    | 0, f2 => cases f2 <;> rfl
    | m + 1, 0 => omega
    | m + 1, g + 1 =>
      have hq : (m + 1) / 10 ≤ m := by
        have := Nat.div_lt_self (Nat.succ_pos m) (by omega : 1 < 10)
        omega
      simp only [digitsRevGo]
      exact congrArg _ (ih ((m + 1) / 10) g (by omega) (by omega))

theorem digitsRev_succ (n : Nat) (h : 0 < n) :
    digitsRev n = (n % 10) :: digitsRev (n / 10) := by
  match n, h with
  | m + 1, _ =>
    have hq : (m + 1) / 10 ≤ m := by
      have := Nat.div_lt_self (Nat.succ_pos m) (by omega : 1 < 10)
      omega
    show digitsRevGo (m + 1) (m + 1) = _
    simp only [digitsRevGo]
    exact congrArg _ (digitsRevGo_fuel m ((m + 1) / 10) ((m + 1) / 10) hq le_rfl)

theorem digitsRev_lt10 (n : Nat) : ∀ d ∈ digitsRev n, d < 10 := by
  induction n using Nat.strong_induction_on with
  | _ n ih =>
    match n with
    | 0 => intro d hd; simp [digitsRev, digitsRevGo] at hd
    | m + 1 =>
      rw [digitsRev_succ (m + 1) (Nat.succ_pos m)]
      intro d hd
      rcases List.mem_cons.mp hd with h | h
      · subst h; exact Nat.mod_lt _ (by omega)
      · exact ih ((m + 1) / 10) (Nat.div_lt_self (Nat.succ_pos m) (by omega)) d h

theorem fromDigits_append_digit (ds : List Nat) (d : Nat) :
    fromDigits (ds ++ [d]) = 10 * fromDigits ds + d := by
  simp [fromDigits, List.foldl_append]

theorem fromDigits_digits (n : Nat) : fromDigits (digits n) = n := by
  induction n using Nat.strong_induction_on with
  | _ n ih =>
    match n with
    | 0 => rfl
    | m + 1 =>
      have hlt : (m + 1) / 10 < m + 1 := Nat.div_lt_self (Nat.succ_pos m) (by omega)
      have : digits (m + 1) = digits ((m + 1) / 10) ++ [(m + 1) % 10] := by
        simp [digits, digitsRev_succ (m + 1) (Nat.succ_pos m)]
      rw [this, fromDigits_append_digit, ih _ hlt]
      omega

theorem fromDigits_foldl (ds : List Nat) : ∀ a : Nat,
    List.foldl (fun x d => 10 * x + d) a ds = a * 10 ^ ds.length + fromDigits ds := by
  induction ds with
  | nil => intro a; simp [fromDigits]
  | cons d ds ih =>
    intro a
    have h1 : fromDigits (d :: ds) = d * 10 ^ ds.length + fromDigits ds := by
      show List.foldl _ _ (d :: ds) = _
      rw [List.foldl_cons]
      simpa using ih (10 * 0 + d)
    show List.foldl _ _ (d :: ds) = _
    rw [List.foldl_cons, ih (10 * a + d), h1, List.length_cons, pow_succ]
    ring

theorem fromDigits_cons (d : Nat) (ds : List Nat) :
    fromDigits (d :: ds) = d * 10 ^ ds.length + fromDigits ds := by
  show List.foldl _ _ (d :: ds) = _
  rw [List.foldl_cons]
  simpa using fromDigits_foldl ds (10 * 0 + d)

theorem fromDigits_lt (ds : List Nat) (h : ∀ d ∈ ds, d < 10) :
    fromDigits ds < 10 ^ ds.length := by
  induction ds with
  | nil => simp [fromDigits]
  | cons d ds ih =>
    rw [fromDigits_cons]
    have hd : d < 10 := h d (List.mem_cons_self d ds)
    have hds : fromDigits ds < 10 ^ ds.length :=
      ih fun x hx => h x (List.mem_cons_of_mem d hx)
    calc d * 10 ^ ds.length + fromDigits ds
        < d * 10 ^ ds.length + 10 ^ ds.length := by omega
      _ = (d + 1) * 10 ^ ds.length := by ring
      _ ≤ 10 * 10 ^ ds.length := Nat.mul_le_mul_right _ (by omega)
      _ = 10 ^ (d :: ds).length := by rw [List.length_cons, pow_succ]; ring

theorem digitsRev_length_le (k : Nat) : ∀ n, n < 10 ^ k →
    (digitsRev n).length ≤ k := by
  induction k with
  | zero =>
    intro n hn
    interval_cases n
    simp [digitsRev, digitsRevGo]
  | succ j ih =>
    intro n hn
    match n with
    | 0 => simp [digitsRev, digitsRevGo]
    | m + 1 =>
      rw [digitsRev_succ (m + 1) (Nat.succ_pos m), List.length_cons]
      have hq : (m + 1) / 10 < 10 ^ j := by
        rw [Nat.div_lt_iff_lt_mul (by omega : 0 < 10)]
        calc m + 1 < 10 ^ (j + 1) := hn
          _ = 10 ^ j * 10 := by rw [pow_succ]
      exact Nat.succ_le_succ (ih _ hq)

theorem digits_length_le5 (n : Nat) (h : n < 100000) : (digits n).length ≤ 5 := by
  have h10 : (10 : Nat) ^ 5 = 100000 := by norm_num
  have : (digitsRev n).length ≤ 5 := digitsRev_length_le 5 n (by omega)
  simpa [digits] using this

theorem pad5_length (n : Nat) (h : n < 100000) : (pad5 n).length = 5 := by
  have h5 := digits_length_le5 n h
  simp only [pad5, List.length_append, List.length_replicate]
  omega

theorem pad5_lt10 (n : Nat) : ∀ d ∈ pad5 n, d < 10 := by
  intro d hd
  rcases List.mem_append.mp hd with h | h
  · have := List.eq_of_mem_replicate h
    omega
  · exact digitsRev_lt10 n d (by simpa [digits] using h)

theorem fromDigits_replicate_zero (k : Nat) (ds : List Nat) :
    fromDigits (List.replicate k 0 ++ ds) = fromDigits ds := by
  induction k with
  | zero => simp
  | succ j ih =>
    show fromDigits (List.replicate (j + 1) 0 ++ ds) = fromDigits ds
    rw [List.replicate_succ, List.cons_append, fromDigits_cons, ih]
    simp

theorem fromDigits_pad5 (n : Nat) : fromDigits (pad5 n) = n := by
  rw [pad5, fromDigits_replicate_zero, fromDigits_digits]

theorem lexLt_iff_of_len (ds : List Nat) : ∀ es : List Nat,
    ds.length = es.length → (∀ d ∈ ds, d < 10) → (∀ e ∈ es, e < 10) →
    (lexLt ds es = true ↔ fromDigits ds < fromDigits es) := by
  induction ds with
  | nil =>
    intro es hlen _ _
    have : es = [] := List.eq_nil_of_length_eq_zero hlen.symm
    subst this
    simp [lexLt]
  | cons d ds ih =>
    intro es hlen hds hes
    match es with
    | [] => simp at hlen
    | e :: es =>
      have hlen' : ds.length = es.length := by simpa using hlen
      have hX : fromDigits ds < 10 ^ ds.length :=
        fromDigits_lt ds fun x hx => hds x (List.mem_cons_of_mem d hx)
      have hY : fromDigits es < 10 ^ es.length :=
        fromDigits_lt es fun x hx => hes x (List.mem_cons_of_mem e hx)
      rw [← hlen'] at hY
      rw [fromDigits_cons, fromDigits_cons, ← hlen']
      set M := 10 ^ ds.length with hM
      have hMpos : 0 < M := Nat.pos_pow_of_pos _ (by omega)
      rcases Nat.lt_trichotomy d e with hde | hde | hde
      · have hlex : lexLt (d :: ds) (e :: es) = true := by
          simp [lexLt, hde]
        rw [hlex]
        simp only [true_iff]
        calc d * M + fromDigits ds < d * M + M := by omega
          _ = (d + 1) * M := by ring
          _ ≤ e * M := Nat.mul_le_mul_right _ (by omega)
          _ ≤ e * M + fromDigits es := Nat.le_add_right _ _
      · subst hde
        have hlex : lexLt (d :: ds) (d :: es) = lexLt ds es := by
          simp [lexLt]
        rw [hlex]
        have := ih es hlen'
          (fun x hx => hds x (List.mem_cons_of_mem d hx))
          (fun x hx => hes x (List.mem_cons_of_mem d hx))
        rw [this]
        omega
      · have hlex : lexLt (d :: ds) (e :: es) = false := by
          simp [lexLt]
          omega
        rw [hlex]
        simp only [Bool.false_eq_true, false_iff, not_lt]
        exact le_of_lt (calc e * M + fromDigits es
              < e * M + M := by omega
          _ = (e + 1) * M := by ring
          _ ≤ d * M := Nat.mul_le_mul_right _ (by omega)
          _ ≤ d * M + fromDigits ds := Nat.le_add_right _ _)

theorem lexLt_pad5 (a b : Nat) (ha : a < 100000) (hb : b < 100000) :
    (lexLt (pad5 a) (pad5 b) = true ↔ a < b) := by
  have := lexLt_iff_of_len (pad5 a) (pad5 b)
    (by rw [pad5_length a ha, pad5_length b hb]) (pad5_lt10 a) (pad5_lt10 b)
  rwa [fromDigits_pad5, fromDigits_pad5] at this

theorem le_foldl_max (ks : List Nat) : ∀ a : Nat, a ≤ ks.foldl max a := by
  induction ks with
  | nil => intro a; exact le_rfl
  | cons k ks ih =>
    intro a
    calc a ≤ max a k := by omega
      _ ≤ ks.foldl max (max a k) := ih (max a k)

theorem foldl_max_mem (ks : List Nat) : ∀ a : Nat,
    ks.foldl max a = a ∨ ks.foldl max a ∈ ks := by
  induction ks with
  | nil => intro a; exact Or.inl rfl
  | cons k ks ih =>
    intro a
    rcases ih (max a k) with h | h
    · rcases Nat.le_total a k with hak | hka
      · right
        have hmk : max a k = k := by omega
        rw [List.foldl_cons, h, hmk]
        exact List.mem_cons_self k ks
      · left
        have hmk : max a k = a := by omega
        rw [List.foldl_cons, h, hmk]
    · right
      rw [List.foldl_cons]
      exact List.mem_cons_of_mem k h

theorem mem_le_foldl_max (ks : List Nat) : ∀ (a : Nat), ∀ k ∈ ks,
    k ≤ ks.foldl max a := by
  induction ks with
  | nil => intro a k hk; simp at hk
  | cons j ks ih =>
    intro a k hk
    rcases List.mem_cons.mp hk with h | h
    · subst h
      calc k ≤ max a k := by omega
        _ ≤ ks.foldl max (max a k) := le_foldl_max ks (max a k)
    · exact ih (max a j) k h

theorem maxKey_mem (fs : FS) (h : fs ≠ []) : maxKey fs ∈ fs.map Prod.fst := by
  match fs with
  | [] => exact absurd rfl h
  | q :: rest =>
    show (rest.map fun x => x.1).foldl max q.1 ∈ _
    rcases foldl_max_mem (rest.map fun x => x.1) q.1 with h1 | h1
    · rw [h1]; simp
    · simp only [List.map_cons, List.mem_cons]
      right
      simpa using h1

theorem maxKey_ub (fs : FS) : ∀ q ∈ fs, q.1 ≤ maxKey fs := by
  match fs with
  | [] => intro q hq; simp at hq
  | p :: rest =>
    intro q hq
    rcases List.mem_cons.mp hq with h | h
    · subst h
      exact le_foldl_max (rest.map fun x => x.1) q.1
    · exact mem_le_foldl_max (rest.map fun x => x.1) p.1 q.1
        (List.mem_map.mpr ⟨q, h, rfl⟩)

theorem foldl_lexLt_pad5 (ks : List Nat) : ∀ a : Nat, a < 100000 →
    (∀ k ∈ ks, k < 100000) →
    (ks.map pad5).foldl (fun acc x => if lexLt acc x then x else acc) (pad5 a)
      = pad5 (ks.foldl max a) := by
  induction ks with
  | nil => intro a _ _; rfl
  | cons k ks ih =>
    intro a ha hks
    have hk : k < 100000 := hks k (List.mem_cons_self k ks)
    have hstep : (if lexLt (pad5 a) (pad5 k) then pad5 k else pad5 a)
        = pad5 (max a k) := by
      rcases Nat.lt_or_ge a k with h | h
      · have hmk : max a k = k := by omega
        rw [if_pos ((lexLt_pad5 a k ha hk).mpr h), hmk]
      · have : ¬ lexLt (pad5 a) (pad5 k) = true := by
          rw [lexLt_pad5 a k ha hk]; omega
        have hmk : max a k = a := by omega
        rw [if_neg this, hmk]
    show List.foldl _ (if lexLt (pad5 a) (pad5 k) then pad5 k else pad5 a) (ks.map pad5)
        = _
    rw [hstep]
    exact ih (max a k) (by omega) fun x hx => hks x (List.mem_cons_of_mem k hx)

theorem next_output_index_eq (fs : FS) (hne : fs ≠ [])
    (hk : ∀ q ∈ fs, q.1 < 100000) :
    next_output_index fs = max 1 (maxKey fs) := by
  match fs with
  | [] => exact absurd rfl hne
  | q :: rest =>
    have hmap : (q :: rest).map (fun p => pad5 p.1)
        = pad5 q.1 :: (rest.map fun x => x.1).map pad5 := by
      simp [List.map_map, Function.comp]
    have hq : q.1 < 100000 := hk q (List.mem_cons_self q rest)
    have hrest : ∀ k ∈ rest.map fun x => x.1, k < 100000 := by
      intro k hkmem
      rcases List.mem_map.mp hkmem with ⟨p, hp, hpk⟩
      rw [← hpk]
      exact hk p (List.mem_cons_of_mem q hp)
    have hmax : maxKey (q :: rest) < 100000 := by
      have hmem := maxKey_mem (q :: rest) (by simp)
      rcases List.mem_map.mp hmem with ⟨p, hp, hpk⟩
      rw [← hpk]
      exact hk p hp
    show next_output_index (q :: rest) = _
    rw [next_output_index, hmap]
    show max 1 (fromDigits (((rest.map fun x => x.1).map pad5).foldl _ (pad5 q.1))) = _
    rw [foldl_lexLt_pad5 (rest.map fun x => x.1) q.1 hq hrest]
    show max 1 (fromDigits (pad5 (maxKey (q :: rest)))) = _
    rw [fromDigits_pad5]

/-! ## The chunk writer as a greedy partition of the written spans -/

theorem chunksC_ne_nil (B : Nat) : ∀ (ds : List Bytes) (cur : Bytes),
    chunksC B cur ds ≠ [] := by
  intro ds
  induction ds with
  | nil => intro cur; simp [chunksC]
  | cons d ds ih =>
    intro cur
    simp only [chunksC]
    split
    · simp
    · exact ih (cur ++ d)

theorem chunksC_getLast (B : Nat) : ∀ (ds : List Bytes) (cur : Bytes),
    (chunksC B cur ds).getLast? = some (lastCur B cur ds) := by
  intro ds
  induction ds with
  | nil => intro cur; rfl
  | cons d ds ih =>
    intro cur
    simp only [chunksC, lastCur]
    split
    · rcases hl : chunksC B d ds with _ | ⟨x, xs⟩
      · exact absurd hl (chunksC_ne_nil B ds d)
      · rw [List.getLast?_cons_cons, ← hl, ih d]
    · exact ih (cur ++ d)

theorem chunksC_flatten (B : Nat) : ∀ (ds : List Bytes) (cur : Bytes),
    (chunksC B cur ds).flatten = cur ++ ds.flatten := by
  intro ds
  induction ds with
  | nil => intro cur; simp [chunksC]
  | cons d ds ih =>
    intro cur
    simp only [chunksC]
    split
    · simp [ih d]
    · simp [ih (cur ++ d), List.append_assoc]

theorem chunksC_big (B : Nat) (P : Bytes → Prop) : ∀ (ds : List Bytes) (cur : Bytes),
    (B < cur.length → P cur) → (∀ d ∈ ds, B < d.length → P d) →
    ∀ g ∈ chunksC B cur ds, B < g.length → P g := by
  intro ds
  induction ds with
  | nil =>
    intro cur hcur _ g hg hB
    rw [List.mem_singleton.mp hg]
    exact hcur (by rwa [← List.mem_singleton.mp hg])
  | cons d ds ih =>
    intro cur hcur hds g hg hB
    rw [chunksC] at hg
    by_cases hc : B < cur.length + d.length ∧ 0 < cur.length
    · rw [if_pos hc] at hg
      rcases List.mem_cons.mp hg with h | h
      · subst h; exact hcur hB
      · exact ih d (hds d (List.mem_cons_self d ds))
          (fun x hx => hds x (List.mem_cons_of_mem d hx)) g h hB
    · rw [if_neg hc] at hg
      refine ih (cur ++ d) ?_ (fun x hx => hds x (List.mem_cons_of_mem d hx)) g hg hB
      intro hlen
      rw [List.length_append] at hlen
      rcases Decidable.not_and_iff_or_not.mp hc with h | h
      · omega
      · have : cur = [] := List.eq_nil_of_length_eq_zero (by omega)
        subst this
        simpa using hds d (List.mem_cons_self d ds) (by simpa using hlen)

theorem chunksC_head_ext (B : Nat) : ∀ (ds : List Bytes) (cur : Bytes),
    ∃ t, (chunksC B cur ds).head? = some (cur ++ t) := by
  intro ds
  induction ds with
  | nil => intro cur; exact ⟨[], by simp [chunksC]⟩
  | cons d ds ih =>
    intro cur
    simp only [chunksC]
    split
    · exact ⟨[], by simp⟩
    · rcases ih (cur ++ d) with ⟨t, ht⟩
      exact ⟨d ++ t, by rw [ht, List.append_assoc]⟩

theorem runWriter_cons (w : ChunkWriter) (fs : FS) (d : Bytes) (ds : List Bytes) :
    runWriter w fs (d :: ds)
      = runWriter (w.write_line fs d).1 (w.write_line fs d).2 ds := rfl

theorem runWriter_append (w : ChunkWriter) (fs : FS) (xs ys : List Bytes) :
    runWriter w fs (xs ++ ys)
      = runWriter (runWriter w fs xs).1 (runWriter w fs xs).2 ys := by
  simp [runWriter, List.foldl_append]

/-- Running the writer from a state whose current chunk holds `cur` (with an
accurate counter) and with no chunk files above the current index produces
exactly the greedy partition `chunksC`: final index, final counter, and the
content of every chunk file. -/
theorem runWriter_eq (B : Nat) : ∀ (ds : List Bytes) (i : Nat) (fs : FS) (cur : Bytes),
    fsGet fs i = some cur →
    (∀ j, i < j → fsGet fs j = none) →
    (runWriter ⟨i, cur.length, B⟩ fs ds).1
        = ⟨i + ((chunksC B cur ds).length - 1), (lastCur B cur ds).length, B⟩ ∧
    ∀ j, fsGet (runWriter ⟨i, cur.length, B⟩ fs ds).2 j
        = if i ≤ j then (chunksC B cur ds)[j - i]? else fsGet fs j := by
  intro ds
  induction ds with
  | nil =>
    intro i fs cur hget hhigh
    constructor
    · show (⟨i, cur.length, B⟩ : ChunkWriter) = _
      simp [chunksC, lastCur]
    · intro j
      show fsGet fs j = _
      rcases Nat.lt_trichotomy j i with h | h | h
      · rw [if_neg (by omega)]
      · subst h
        rw [if_pos le_rfl]
        simpa [chunksC] using hget
      · rw [if_pos (by omega), hhigh j h]
        have : j - i ≥ 1 := by omega
        rw [List.getElem?_eq_none (by simp [chunksC]; omega)]
  | cons d ds ih =>
    intro i fs cur hget hhigh
    rw [runWriter_cons]
    by_cases hc : B < cur.length + d.length ∧ 0 < cur.length
    · -- rotate, then append into the brand-new chunk at `i + 1`
      have e1 : ChunkWriter.write_line ⟨i, cur.length, B⟩ fs d
          = (⟨i + 1, d.length, B⟩, fsSet (fsSet fs (i + 1) []) (i + 1) d) := by
        simp only [ChunkWriter.write_line, ChunkWriter.rotate, if_pos hc,
          fsAppend, fsGet_fsSet, if_pos rfl]
        simp
      rw [e1]
      have hget' : fsGet (fsSet (fsSet fs (i + 1) []) (i + 1) d) (i + 1) = some d := by
        rw [fsGet_fsSet, if_pos rfl]
      have hhigh' : ∀ j, i + 1 < j → fsGet (fsSet (fsSet fs (i + 1) []) (i + 1) d) j = none := by
        intro j hj
        rw [fsGet_fsSet, if_neg (by omega), fsGet_fsSet, if_neg (by omega)]
        exact hhigh j (by omega)
      have hlen' : d.length = (d : Bytes).length := rfl
      have hmain := ih (i + 1) (fsSet (fsSet fs (i + 1) []) (i + 1) d) d hget' hhigh'
      have hch : chunksC B cur (d :: ds) = cur :: chunksC B d ds := by
        rw [chunksC, if_pos hc]
      have hlc : lastCur B cur (d :: ds) = lastCur B d ds := by
        rw [lastCur, if_pos hc]
      have hL : 0 < (chunksC B d ds).length :=
        List.length_pos.mpr (chunksC_ne_nil B ds d)
      constructor
      · rw [hmain.1, hch, hlc, List.length_cons]
        have : i + 1 + ((chunksC B d ds).length - 1)
            = i + ((chunksC B d ds).length + 1 - 1) := by omega
        rw [this]
      · intro j
        rw [hmain.2 j, hch]
        rcases Nat.lt_trichotomy j i with h | h | h
        · rw [if_neg (by omega), if_neg (by omega)]
          rw [fsGet_fsSet, if_neg (by omega), fsGet_fsSet, if_neg (by omega)]
        · subst h
          rw [if_neg (by omega), if_pos le_rfl]
          rw [fsGet_fsSet, if_neg (by omega), fsGet_fsSet, if_neg (by omega)]
          rw [hget, Nat.sub_self, List.getElem?_cons_zero]
        · rw [if_pos (by omega), if_pos (by omega)]
          have : j - i = (j - (i + 1)) + 1 := by omega
          rw [this, List.getElem?_cons_succ]
    · -- append into the current chunk
      have e1 : ChunkWriter.write_line ⟨i, cur.length, B⟩ fs d
          = (⟨i, (cur ++ d).length, B⟩, fsSet fs i (cur ++ d)) := by
        simp only [ChunkWriter.write_line, ChunkWriter.rotate, if_neg hc,
          fsAppend, hget, fsGet_fsSet]
        simp [fsAppend, fsGet, hget]
      rw [e1]
      have hget' : fsGet (fsSet fs i (cur ++ d)) i = some (cur ++ d) := by
        rw [fsGet_fsSet, if_pos rfl]
      have hhigh' : ∀ j, i < j → fsGet (fsSet fs i (cur ++ d)) j = none := by
        intro j hj
        rw [fsGet_fsSet, if_neg (by omega)]
        exact hhigh j hj
      have hmain := ih i (fsSet fs i (cur ++ d)) (cur ++ d) hget' hhigh'
      have hch : chunksC B cur (d :: ds) = chunksC B (cur ++ d) ds := by
        rw [chunksC, if_neg hc]
      have hlc : lastCur B cur (d :: ds) = lastCur B (cur ++ d) ds := by
        rw [lastCur, if_neg hc]
      constructor
      · rw [hmain.1, hch, hlc]
      · intro j
        rw [hmain.2 j, hch]
        rcases Nat.lt_trichotomy j i with h | h | h
        · rw [if_neg (by omega), if_neg (by omega), fsGet_fsSet, if_neg (by omega)]
        · subst h
          rw [if_pos le_rfl, if_pos le_rfl]
        · rw [if_pos (by omega), if_pos (by omega)]

/-- `runWriter_eq` specialized to a run started on an empty directory. -/
theorem runFresh_eq (B : Nat) (ds : List Bytes) :
    (runFresh B ds).1
        = ⟨1 + ((chunksC B [] ds).length - 1), (lastCur B [] ds).length, B⟩ ∧
    ∀ j, fsGet (runFresh B ds).2 j
        = if 1 ≤ j then (chunksC B [] ds)[j - 1]? else none := by
  have hopen : open_existing_or_new [] 1 B = (⟨1, 0, B⟩, [(1, [])]) := rfl
  have hget : fsGet [(1, ([] : Bytes))] 1 = some [] := rfl
  have hhigh : ∀ j, 1 < j → fsGet [(1, ([] : Bytes))] j = none := by
    intro j hj
    show alookup [(1, ([] : Bytes))] j = none
    simp [alookup]
    omega
  have := runWriter_eq B ds 1 [(1, [])] [] hget hhigh
  constructor
  · exact this.1
  · intro j
    rcases Nat.lt_or_ge j 1 with h | h
    · have hj : j = 0 := by omega
      subst hj
      rw [if_neg (by omega)]
      exact (this.2 0).trans (by rw [if_neg (by omega)]; rfl)
    · rw [if_pos h]
      exact (this.2 j).trans (by rw [if_pos h])

/-! ## Driver-level lemmas -/

theorem isDuplicate_eq (processed : List (String × Sig)) (path : String)
    (sig : Sig) :
    (isDuplicate processed path sig = true ↔ alookup processed path = some sig) := by
  rw [isDuplicate]
  cases halk : alookup processed path with
  | none => simp
  | some prev =>
    simp only [Bool.and_eq_true, beq_iff_eq, Option.some.injEq]
    constructor
    · rintro ⟨⟨h1, h2⟩, h3⟩
      cases prev; cases sig
      simp_all
    · intro h
      subst h
      simp

theorem fsSet_isSome (fs : FS) (i : Nat) (c : Bytes) (j : Nat)
    (h : (fsGet fs j).isSome) : (fsGet (fsSet fs i c) j).isSome := by
  rw [fsGet_fsSet]
  split
  · rfl
  · exact h

theorem fsAppend_isSome (fs : FS) (i : Nat) (d : Bytes) (j : Nat)
    (h : (fsGet fs j).isSome) : (fsGet (fsAppend fs i d) j).isSome :=
  fsSet_isSome fs i _ j h

theorem write_line_fs_isSome (w : ChunkWriter) (fs : FS) (d : Bytes) (j : Nat)
    (h : (fsGet fs j).isSome) :
    (fsGet (w.write_line fs d).2 j).isSome := by
  by_cases hc : w.chunk_bytes < w.bytes_in_chunk + d.length ∧ 0 < w.bytes_in_chunk
  · have e : (w.write_line fs d).2
        = fsAppend (fsSet fs (w.index + 1) []) (w.index + 1) d := by
      simp [ChunkWriter.write_line, ChunkWriter.rotate, if_pos hc]
    rw [e]
    exact fsAppend_isSome _ _ _ _ (fsSet_isSome _ _ _ _ h)
  · have e : (w.write_line fs d).2 = fsAppend fs w.index d := by
      simp [ChunkWriter.write_line, if_neg hc]
    rw [e]
    exact fsAppend_isSome _ _ _ _ h

theorem runWriter_fs_isSome (ds : List Bytes) : ∀ (w : ChunkWriter) (fs : FS) (j : Nat),
    (fsGet fs j).isSome → (fsGet (runWriter w fs ds).2 j).isSome := by
  induction ds with
  | nil => intro w fs j h; exact h
  | cons d ds ih =>
    intro w fs j h
    rw [runWriter_cons]
    exact ih _ _ j (write_line_fs_isSome w fs d j h)

theorem open_of_some (fs : FS) (i B : Nat) (c : Bytes) (h : fsGet fs i = some c) :
    open_existing_or_new fs i B = (⟨i, c.length, B⟩, fs) := by
  rw [open_existing_or_new, h]

theorem open_fs_isSome (fs : FS) (i B : Nat) :
    (fsGet (open_existing_or_new fs i B).2 i).isSome := by
  cases h : fsGet fs i with
  | none =>
    have e : (open_existing_or_new fs i B).2 = fsSet fs i [] := by
      rw [open_existing_or_new, h]
    rw [e, fsGet_fsSet, if_pos rfl]
    rfl
  | some c =>
    rw [open_of_some fs i B c h]
    rw [h]
    rfl

theorem runInputs_cons (stats : String → Option Sig)
    (reads : String → Bytes × ReadOutcome) (s : DriverState) (p : String)
    (ps : List String) :
    runInputs stats reads s (p :: ps)
      = match processInput stats reads s p with
        | Except.ok s' => runInputs stats reads s' ps
        | Except.error e => Except.error e := rfl

/-- One loop iteration on an input whose read (if reached) completes:
it succeeds, preserves every recorded-and-watermarked signature, records
this input's own signature, and never removes a chunk file. -/
theorem processInput_reads_ok (stats : String → Option Sig)
    (reads : String → Bytes × ReadOutcome) (s : DriverState) (p : String)
    (hok : (reads p).2 = ReadOutcome.ok) :
    ∃ s', processInput stats reads s p = Except.ok s' ∧
      (∀ q sig, stats q = some sig → alookup s.processed q = some sig →
        sig.mtime ≤ s.last_mtime_seen →
        (alookup s'.processed q = some sig ∧ sig.mtime ≤ s'.last_mtime_seen)) ∧
      (∀ sig, stats p = some sig →
        (alookup s'.processed p = some sig ∧ sig.mtime ≤ s'.last_mtime_seen)) ∧
      (∀ j, (fsGet s.fs j).isSome → (fsGet s'.fs j).isSome) := by
  cases hstat : stats p with
  | none =>
    refine ⟨s, by simp [processInput, hstat], fun q sig _ h1 h2 => ⟨h1, h2⟩, ?_, fun j h => h⟩
    intro sig hsig
    exact absurd hsig (by simp)
  | some sigp =>
    by_cases hdup : isDuplicate s.processed p sigp = true
    · have hbr : processInput stats reads s p = Except.ok
          { s with last_mtime_seen := max s.last_mtime_seen sigp.mtime } := by
        simp only [processInput, hstat, if_pos hdup]
      refine ⟨_, hbr, ?_, ?_, fun j h => h⟩
      · intro q sig _ h1 h2
        refine ⟨h1, ?_⟩
        show sig.mtime ≤ max s.last_mtime_seen sigp.mtime
        omega
      · intro sig hsig
        have hss : sigp = sig := by simpa using hsig
        subst hss
        refine ⟨(isDuplicate_eq s.processed p sigp).mp hdup, ?_⟩
        show sigp.mtime ≤ max s.last_mtime_seen sigp.mtime
        omega
    · have hbr : processInput stats reads s p = Except.ok
          { s with writer := (writeLines s.writer s.fs (reads p).1).1,
                   fs := (writeLines s.writer s.fs (reads p).1).2,
                   processed := aset s.processed p sigp,
                   last_mtime_seen := max s.last_mtime_seen sigp.mtime,
                   processed_count := s.processed_count + 1 } := by
        simp only [processInput, hstat, if_neg hdup, hok]
      refine ⟨_, hbr, ?_, ?_, ?_⟩
      · intro q sig hq h1 h2
        constructor
        · show alookup (aset s.processed p sigp) q = some sig
          rw [alookup_aset]
          by_cases hpq : p = q
          · subst hpq
            rw [if_pos rfl]
            rw [hstat] at hq
            exact hq
          · rw [if_neg hpq]
            exact h1
        · show sig.mtime ≤ max s.last_mtime_seen sigp.mtime
          omega
      · intro sig hsig
        have hss : sigp = sig := by simpa using hsig
        subst hss
        constructor
        · show alookup (aset s.processed p sigp) p = some sigp
          rw [alookup_aset, if_pos rfl]
        · show sigp.mtime ≤ max s.last_mtime_seen sigp.mtime
          omega
      · intro j h
        exact runWriter_fs_isSome _ s.writer s.fs j h

/-- Running the loop when every input's read completes: it succeeds, ends
with every input's fresh signature recorded under the final watermark, and
never removes a chunk file. -/
theorem runInputs_reads_ok (stats : String → Option Sig)
    (reads : String → Bytes × ReadOutcome) :
    ∀ (l : List String) (s : DriverState),
    (∀ p ∈ l, (reads p).2 = ReadOutcome.ok) →
    ∃ fin, runInputs stats reads s l = Except.ok fin ∧
      (∀ q sig, stats q = some sig → alookup s.processed q = some sig →
        sig.mtime ≤ s.last_mtime_seen →
        (alookup fin.processed q = some sig ∧ sig.mtime ≤ fin.last_mtime_seen)) ∧
      (∀ p ∈ l, ∀ sig, stats p = some sig →
        (alookup fin.processed p = some sig ∧ sig.mtime ≤ fin.last_mtime_seen)) ∧
      (∀ j, (fsGet s.fs j).isSome → (fsGet fin.fs j).isSome) := by
  intro l
  induction l with
  | nil =>
    intro s _
    exact ⟨s, rfl, fun q sig _ h1 h2 => ⟨h1, h2⟩, by simp, fun j h => h⟩
  | cons p rest ih =>
    intro s hok
    obtain ⟨s', hs', hpres, hself, hmono⟩ :=
      processInput_reads_ok stats reads s p (hok p (List.mem_cons_self p rest))
    obtain ⟨fin, hfin, hpres', hall', hmono'⟩ :=
      ih s' fun q hq => hok q (List.mem_cons_of_mem p hq)
    refine ⟨fin, ?_, ?_, ?_, fun j h => hmono' j (hmono j h)⟩
    · rw [runInputs_cons, hs']
      exact hfin
    · intro q sig hq h1 h2
      obtain ⟨h1', h2'⟩ := hpres q sig hq h1 h2
      exact hpres' q sig hq h1' h2'
    · intro q hq sig hsig
      rcases List.mem_cons.mp hq with h | h
      · subst h
        obtain ⟨h1', h2'⟩ := hself sig hsig
        exact hpres' q sig hsig h1' h2'
      · exact hall' q h sig hsig

/-- When every input is either vanished or already recorded under the
current watermark, the loop is the identity on the driver state. -/
theorem runInputs_all_dup (stats : String → Option Sig)
    (reads : String → Bytes × ReadOutcome) :
    ∀ (l : List String) (s : DriverState),
    (∀ p ∈ l, stats p = none ∨ ∃ sig, stats p = some sig ∧
      alookup s.processed p = some sig ∧ sig.mtime ≤ s.last_mtime_seen) →
    runInputs stats reads s l = Except.ok s := by
  intro l
  induction l with
  | nil => intro s _; rfl
  | cons p rest ih =>
    intro s h
    rcases h p (List.mem_cons_self p rest) with hnone | ⟨sig, hsig, hlk, hmt⟩
    · rw [runInputs_cons]
      rw [show processInput stats reads s p = Except.ok s by simp [processInput, hnone]]
      exact ih s fun q hq => h q (List.mem_cons_of_mem p hq)
    · have hdup : isDuplicate s.processed p sig = true :=
        (isDuplicate_eq s.processed p sig).mpr hlk
      have hmax : max s.last_mtime_seen sig.mtime = s.last_mtime_seen := by omega
      have hstep : processInput stats reads s p = Except.ok s := by
        simp only [processInput, hsig, if_pos hdup, hmax]
      rw [runInputs_cons, hstep]
      exact ih s fun q hq => h q (List.mem_cons_of_mem p hq)

/-! ## Line splitting -/

theorem splitLinesAux_shape : ∀ (s acc : Bytes), nl ∉ acc →
    ∀ l ∈ splitLinesAux acc s,
      l ≠ [] ∧ ((nl ∉ l) ∨ ∃ m, l = m ++ [nl] ∧ nl ∉ m) := by
  intro s
  induction s with
  | nil =>
    intro acc hacc l hl
    rw [splitLinesAux] at hl
    split at hl
    · simp at hl
    · rw [List.mem_singleton.mp hl]
      constructor
      · simp only [ne_eq, List.reverse_eq_nil_iff]
        intro he
        subst he
        simp_all [List.isEmpty_nil]
      · left
        simpa using hacc
  | cons c rest ih =>
    intro acc hacc l hl
    rw [splitLinesAux] at hl
    by_cases hc : c = nl
    · rw [if_pos hc] at hl
      rcases List.mem_cons.mp hl with h | h
      · subst h
        constructor
        · simp
        · right
          exact ⟨acc.reverse, by simp [hc], by simpa using hacc⟩
      · exact ih [] (by simp) l h
    · rw [if_neg hc] at hl
      refine ih (c :: acc) ?_ l hl
      intro hmem
      rcases List.mem_cons.mp hmem with h | h
      · exact hc h.symm
      · exact hacc h

/-! ## Claim theorems -/

/-- C9: every line appended to a chunk file — i.e. the image under the
driver's normalization (lines 163–165) of a line yielded by the gzip text
iterator — ends with exactly one newline, whether or not the source line
ended with one. -/
theorem normalized_line_single_terminator :
    ∀ (content : Bytes), ∀ l ∈ splitLines content,
      (normalizeLine l).getLast? = some nl ∧ (normalizeLine l).count nl = 1 := by
  intro content l hl
  obtain ⟨hne, hshape⟩ := splitLinesAux_shape content [] (by simp) l hl
  rcases hshape with hnotin | ⟨m, hm, hmnotin⟩
  · have hlast : ¬ l.getLast? = some nl := by
      intro hcon
      exact hnotin (List.mem_of_mem_getLast? hcon)
    rw [normalizeLine, if_neg hlast]
    constructor
    · exact List.getLast?_concat l
    · rw [List.count_append]
      rw [List.count_eq_zero.mpr hnotin]
      simp
  · subst hm
    have hlast : (m ++ [nl]).getLast? = some nl := List.getLast?_concat m
    rw [normalizeLine, if_pos hlast]
    constructor
    · exact hlast
    · rw [List.count_append]
      rw [List.count_eq_zero.mpr hmnotin]
      simp

/-- C9 witness: the two lines of the content `"A\nB"` (one terminated, one
not) each come out of normalization with exactly one trailing newline. -/
theorem normalized_line_single_terminator_witness :
    (normalizeLine [65, 10]).getLast? = some nl ∧ (normalizeLine [65, 10]).count nl = 1 :=
  normalized_line_single_terminator [65, 10, 66] [65, 10] (by decide)

/-- C10: the writer's in-memory byte counter equals the on-disk size of the
current chunk file after construction (including resume of an existing
file), after every `write_line`, and after every `rotate`; `write_line`'s
rotation test reads exactly this counter. -/
theorem counter_matches_disk :
    (∀ (fs : FS) (i B : Nat),
      counterAccurate (open_existing_or_new fs i B).1 (open_existing_or_new fs i B).2) ∧
    (∀ (w : ChunkWriter) (fs : FS) (d : Bytes), counterAccurate w fs →
      counterAccurate (w.write_line fs d).1 (w.write_line fs d).2) ∧
    (∀ (w : ChunkWriter) (fs : FS),
      counterAccurate (w.rotate fs).1 (w.rotate fs).2) := by
  refine ⟨?_, ?_, ?_⟩
  · intro fs i B
    cases h : fsGet fs i with
    | none =>
      have e : open_existing_or_new fs i B = (⟨i, 0, B⟩, fsSet fs i []) := by
        rw [open_existing_or_new, h]
      rw [e, counterAccurate]
      show Option.map List.length (fsGet (fsSet fs i []) i) = some 0
      rw [fsGet_fsSet, if_pos rfl]
      rfl
    | some c =>
      rw [open_of_some fs i B c h, counterAccurate]
      show Option.map List.length (fsGet fs i) = some c.length
      rw [h]
      rfl
  · intro w fs d h
    obtain ⟨c, hc1, hc2⟩ : ∃ c, fsGet fs w.index = some c ∧ c.length = w.bytes_in_chunk := by
      cases hget : fsGet fs w.index with
      | none => rw [counterAccurate, hget] at h; cases h
      | some c =>
        refine ⟨c, rfl, ?_⟩
        rw [counterAccurate, hget] at h
        simpa using h
    by_cases hcond : w.chunk_bytes < w.bytes_in_chunk + d.length ∧ 0 < w.bytes_in_chunk
    · have e : w.write_line fs d
          = (⟨w.index + 1, d.length, w.chunk_bytes⟩,
             fsSet (fsSet fs (w.index + 1) []) (w.index + 1) d) := by
        simp only [ChunkWriter.write_line, ChunkWriter.rotate, if_pos hcond, fsAppend,
          fsGet_fsSet, if_pos rfl]
        simp
      rw [e, counterAccurate]
      show Option.map List.length
        (fsGet (fsSet (fsSet fs (w.index + 1) []) (w.index + 1) d) (w.index + 1)) = some d.length
      rw [fsGet_fsSet, if_pos rfl]
      rfl
    · have e : w.write_line fs d
          = (⟨w.index, w.bytes_in_chunk + d.length, w.chunk_bytes⟩,
             fsSet fs w.index (c ++ d)) := by
        simp only [ChunkWriter.write_line, if_neg hcond, fsAppend, hc1]
        simp [fsAppend, fsGet, hc1]
      rw [e, counterAccurate]
      show Option.map List.length (fsGet (fsSet fs w.index (c ++ d)) w.index)
          = some (w.bytes_in_chunk + d.length)
      rw [fsGet_fsSet, if_pos rfl]
      simp [hc2]
  · intro w fs
    rw [counterAccurate]
    show Option.map List.length (fsGet (fsSet fs (w.index + 1) []) (w.index + 1)) = some 0
    rw [fsGet_fsSet, if_pos rfl]
    rfl

/-- C10 witness: a concrete `write_line` step from an accurate state. -/
theorem counter_matches_disk_witness :
    counterAccurate ((⟨1, 0, 5⟩ : ChunkWriter).write_line [(1, [])] [7, 7]).1
      ((⟨1, 0, 5⟩ : ChunkWriter).write_line [(1, [])] [7, 7]).2 :=
  counter_matches_disk.2.1 ⟨1, 0, 5⟩ [(1, [])] [7, 7] rfl

/-- C7 counterexample: loading the state store CAN fail.  A state file
whose `open`/read raises an `OSError` other than `FileNotFoundError`
(e.g. `PermissionError`), or whose bytes are not decodable as UTF-8,
makes `load_state` propagate the exception instead of recovering —
only `json.JSONDecodeError` is quarantined. -/
theorem load_state_fails_on_io_error :
    load_state StateFileRead.ioError true = Except.error RunErr.loadOSError ∧
    load_state StateFileRead.badUtf8 true = Except.error RunErr.loadUnicodeError :=
  ⟨rfl, rfl⟩

/-- C7 amended: a missing state file yields the empty document; a state
file that reads and decodes but fails JSON parsing is renamed aside
(best-effort — the run proceeds whether or not the rename succeeded) and
yields the empty document; a parsed document is returned as-is.  Other
read failures propagate and abort the run. -/
theorem load_state_recovery :
    ∀ renameOk : Bool,
      load_state StateFileRead.missing renameOk = Except.ok (emptyState, false) ∧
      load_state StateFileRead.badJson renameOk = Except.ok (emptyState, renameOk) ∧
      ∀ doc, load_state (StateFileRead.ok doc) renameOk = Except.ok (doc, false) :=
  fun _ => ⟨rfl, rfl, fun _ => rfl⟩

/-- C8 counterexample: a successful run that discovers no candidate
inputs returns before the writer is opened and never calls `save_state`
(lines 137–139) — the state document is persisted zero times, not once. -/
theorem process_empty_run_saves_nothing :
    ∃ r, process W8 = Except.ok r ∧ r.saves = 0 ∧ r.stateFiles.final = none :=
  ⟨_, rfl, rfl, rfl⟩

/-- C8 amended: on every successful run that discovered at least one
candidate input, the state document is persisted exactly once, at the end
of the run, by writing it to the temporary sibling path, flushing and
syncing it, then atomically replacing the final path (`save_state`). -/
theorem process_saves_once_at_end (w : World) (r : RunResult)
    (hne : w.inputs ≠ []) (h : process w = Except.ok r) :
    r.saves = 1 ∧ r.stateFiles = save_state r.state w.stateFiles ∧
    r.stateFiles.tmp = none ∧ r.stateFiles.final = some r.state := by
  rw [process] at h
  cases hl : load_state w.loadRead w.renameOk with
  | error e => rw [hl] at h; cases h
  | ok stb =>
    obtain ⟨st, b⟩ := stb
    rw [hl] at h
    have hie : w.inputs.isEmpty = false := by
      cases hi : w.inputs with
      | nil => exact absurd hi hne
      | cons a l => rfl
    rw [hie] at h
    simp only [Bool.false_eq_true, if_false] at h
    cases hr : runInputs w.stats w.reads
        ⟨st.processed, st.last_processed_mtime,
         (open_existing_or_new w.fs (next_output_index w.fs) CHUNK_BYTES).1,
         (open_existing_or_new w.fs (next_output_index w.fs) CHUNK_BYTES).2, 0, []⟩
        w.inputs with
    | error e => rw [hr] at h; cases h
    | ok fin =>
      rw [hr] at h
      cases hs : w.saveOk with
      | false => rw [hs] at h; simp at h
      | true =>
        rw [hs] at h
        simp only [if_true] at h
        cases h
        exact ⟨rfl, rfl, rfl, rfl⟩

/-- C8 witness: the run over `W1` merges nothing new but opened the writer
(one candidate input was discovered), and saves its state exactly once. -/
theorem process_saves_once_at_end_witness :
    ∃ r, process W1 = Except.ok r ∧ r.saves = 1 ∧
      r.stateFiles = save_state r.state W1.stateFiles ∧
      r.stateFiles.tmp = none ∧ r.stateFiles.final = some r.state := by
  refine ⟨_, rfl, ?_⟩
  exact process_saves_once_at_end W1 _ (by decide) rfl

/-- C6: the claim is right about the intent (the loop catches read
failures, warns and continues) but the handler catches only `OSError`;
a truncated gzip stream raises `EOFError` partway through iteration,
which escapes the `except OSError` at line 167 and aborts the whole run. -/
theorem run_aborts_on_truncated_gzip :
    process W6 = Except.error RunErr.readEOFError ∧
    W6.inputs = ["dshield.log.1.gz"] ∧
    (W6.reads "dshield.log.1.gz").2 = ReadOutcome.eofError :=
  ⟨rfl, rfl, rfl⟩

/-- C2: the duplicate check is true iff the recorded signature for the
path equals the fresh one field-for-field; consequently a path recorded
under `S1` but now carrying `S2 ≠ S1` is re-merged: the new content goes
through the writer, the map entry becomes `S2`, and the merged counter
increments. -/
theorem isDuplicate_spec :
    (∀ (processed : List (String × Sig)) (path : String) (sig : Sig),
      (isDuplicate processed path sig = true ↔ alookup processed path = some sig)) ∧
    (∀ (stats : String → Option Sig) (reads : String → Bytes × ReadOutcome)
        (s : DriverState) (path : String) (S1 S2 : Sig),
      alookup s.processed path = some S1 → S1 ≠ S2 →
      stats path = some S2 → (reads path).2 = ReadOutcome.ok →
      ∃ s', processInput stats reads s path = Except.ok s' ∧
        alookup s'.processed path = some S2 ∧
        s'.processed_count = s.processed_count + 1 ∧
        s'.fs = (writeLines s.writer s.fs (reads path).1).2) := by
  constructor
  · exact isDuplicate_eq
  · intro stats reads s path S1 S2 hS1 hne hstat hok
    have hdup : ¬ isDuplicate s.processed path S2 = true := by
      rw [isDuplicate_eq, hS1]
      simp only [Option.some.injEq]
      exact hne
    have hbr : processInput stats reads s path = Except.ok
        { s with writer := (writeLines s.writer s.fs (reads path).1).1,
                 fs := (writeLines s.writer s.fs (reads path).1).2,
                 processed := aset s.processed path S2,
                 last_mtime_seen := max s.last_mtime_seen S2.mtime,
                 processed_count := s.processed_count + 1 } := by
      simp only [processInput, hstat, if_neg hdup, hok]
    refine ⟨_, hbr, ?_, rfl, rfl⟩
    show alookup (aset s.processed path S2) path = some S2
    rw [alookup_aset, if_pos rfl]

/-- C2 witness: `"a.gz"` was merged under `sig1`; the file now there has
`sig2 ≠ sig1` and its one line is merged rather than skipped. -/
theorem isDuplicate_spec_witness :
    ∃ s', processInput statsW readsW sW "a.gz" = Except.ok s' ∧
      alookup s'.processed "a.gz" = some sig2 ∧
      s'.processed_count = sW.processed_count + 1 ∧
      s'.fs = (writeLines sW.writer sW.fs (readsW "a.gz").1).2 :=
  isDuplicate_spec.2 statsW readsW sW "a.gz" sig1 sig2 (by decide) (by decide)
    (by decide) (by decide)

/-- C3: for any sequence of `write_line` calls with bound `B` starting
from an empty directory: each chunk file's content is a group of the
greedy whole-span partition `chunksC` (spans are never split — their
in-order concatenation over all chunks is exactly the written spans), and
a chunk exceeds `B` bytes only when it consists of a single span that is
itself larger than `B`.  In particular every chunk all of whose spans are
at most `B` bytes — whether or not it is the last-written one — stays
within `B`. -/
theorem chunk_size_bound (B : Nat) (ds : List Bytes) :
    (∀ j g, fsGet (runFresh B ds).2 j = some g → B < g.length →
      ∃ d ∈ ds, g = d ∧ B < d.length) ∧
    (∀ j, fsGet (runFresh B ds).2 j
      = if 1 ≤ j then (chunksC B [] ds)[j - 1]? else none) ∧
    (chunksC B [] ds).flatten = ds.flatten := by
  refine ⟨?_, (runFresh_eq B ds).2, by simpa using chunksC_flatten B ds []⟩
  intro j g hget hbig
  have hmem : g ∈ chunksC B [] ds := by
    have := (runFresh_eq B ds).2 j
    rw [hget] at this
    by_cases hj : 1 ≤ j
    · rw [if_pos hj] at this
      exact List.getElem?_mem this.symm
    · rw [if_neg hj] at this
      cases this
  refine chunksC_big B (fun g => ∃ d ∈ ds, g = d ∧ B < d.length) ds [] ?_ ?_ g hmem hbig
  · intro hcon
    simp at hcon
  · intro d hd hdbig
    exact ⟨d, hd, rfl, hdbig⟩

/-- C3 witness: with bound 5, the span of 6 bytes forms a chunk on its
own that exceeds the bound, and it is itself that oversized span. -/
theorem chunk_size_bound_witness :
    ∃ d ∈ [[1, 2], [3, 4, 5, 6, 7, 8]], ([3, 4, 5, 6, 7, 8] : Bytes) = d ∧ 5 < d.length :=
  (chunk_size_bound 5 [[1, 2], [3, 4, 5, 6, 7, 8]]).1 2 [3, 4, 5, 6, 7, 8]
    (by decide) (by decide)

/-- C5: `rotate` increments the index and opens a brand-new chunk file at
size 0 for the new index; a writer run opened (as the driver does) at an
index at or above every existing chunk never destroys or overwrites
previously written bytes — every pre-existing chunk file's content is a
prefix of its final content; and a fresh run populates a dense index range
`1..N`. -/
theorem rotate_fresh_and_no_overwrite :
    (∀ (w : ChunkWriter) (fs : FS),
      (w.rotate fs).1.index = w.index + 1 ∧ (w.rotate fs).1.bytes_in_chunk = 0 ∧
      fsGet (w.rotate fs).2 (w.index + 1) = some []) ∧
    (∀ (B s : Nat) (ds : List Bytes) (fs : FS),
      (∀ j, s < j → fsGet fs j = none) →
      ∀ j c, fsGet fs j = some c →
        ∃ t, fsGet (runWriter (open_existing_or_new fs s B).1
                      (open_existing_or_new fs s B).2 ds).2 j = some (c ++ t)) ∧
    (∀ (B : Nat) (ds : List Bytes),
      ∃ N, 1 ≤ N ∧ ∀ j, ((fsGet (runFresh B ds).2 j).isSome ↔ (1 ≤ j ∧ j ≤ N))) := by
  refine ⟨?_, ?_, ?_⟩
  · intro w fs
    refine ⟨rfl, rfl, ?_⟩
    show fsGet (fsSet fs (w.index + 1) []) (w.index + 1) = some []
    rw [fsGet_fsSet, if_pos rfl]
  · intro B s ds fs hhigh j c hc
    cases hcur : fsGet fs s with
    | some c0 =>
      rw [open_of_some fs s B c0 hcur]
      have hchar := runWriter_eq B ds s fs c0 hcur hhigh
      rcases Nat.lt_trichotomy j s with h | h | h
      · refine ⟨[], ?_⟩
        rw [List.append_nil, hchar.2 j, if_neg (by omega)]
        exact hc
      · subst h
        have hcc : c = c0 := by
          rw [hcur] at hc
          exact (Option.some.inj hc).symm
        subst hcc
        obtain ⟨t, ht⟩ := chunksC_head_ext B ds c
        refine ⟨t, ?_⟩
        rw [hchar.2 j, if_pos le_rfl, Nat.sub_self]
        rcases hgs : chunksC B c ds with _ | ⟨g, gs⟩
        · exact absurd hgs (chunksC_ne_nil B ds c)
        · rw [hgs] at ht
          simp only [List.head?_cons, Option.some.injEq] at ht
          rw [List.getElem?_cons_zero, ht]
      · rw [hhigh j h] at hc
        cases hc
    | none =>
      have e : open_existing_or_new fs s B = (⟨s, 0, B⟩, fsSet fs s []) := by
        rw [open_existing_or_new, hcur]
      rw [e]
      have hget' : fsGet (fsSet fs s []) s = some [] := by
        rw [fsGet_fsSet, if_pos rfl]
      have hhigh' : ∀ k, s < k → fsGet (fsSet fs s []) k = none := by
        intro k hk
        rw [fsGet_fsSet, if_neg (by omega)]
        exact hhigh k hk
      have hchar := runWriter_eq B ds s (fsSet fs s []) [] hget' hhigh'
      simp only [List.length_nil] at hchar
      rcases Nat.lt_trichotomy j s with h | h | h
      · refine ⟨[], ?_⟩
        rw [List.append_nil, hchar.2 j, if_neg (by omega), fsGet_fsSet, if_neg (by omega)]
        exact hc
      · subst h
        rw [hcur] at hc
        cases hc
      · rw [hhigh j h] at hc
        cases hc
  · intro B ds
    refine ⟨(chunksC B [] ds).length,
      List.length_pos.mpr (chunksC_ne_nil B ds []), ?_⟩
    intro j
    rw [(runFresh_eq B ds).2 j]
    by_cases hj : 1 ≤ j
    · rw [if_pos hj]
      constructor
      · intro hs
        refine ⟨hj, ?_⟩
        by_contra hcon
        rw [List.getElem?_eq_none (by omega)] at hs
        cases hs
      · rintro ⟨_, h2⟩
        rw [List.getElem?_eq_getElem (by omega)]
        rfl
    · rw [if_neg hj]
      simp only [Option.isSome_none, Bool.false_eq_true, false_iff]
      omega

/-- C5 witness: resuming at the highest existing index 1 (holding `[9]`)
with bound 2 and writing an oversizing span rotates to index 2 and leaves
the pre-existing byte of chunk 1 intact. -/
theorem rotate_fresh_and_no_overwrite_witness :
    ∃ t, fsGet (runWriter (open_existing_or_new [(1, [9])] 1 2).1
        (open_existing_or_new [(1, [9])] 1 2).2 [[8, 8]]).2 1 = some ([9] ++ t) :=
  rotate_fresh_and_no_overwrite.2.1 2 1 [[8, 8]] [(1, [9])]
    (fun j hj => by
      show alookup [(1, ([9] : Bytes))] j = none
      simp only [alookup]
      rw [if_neg (by omega)]) 1 [9] rfl

/-- C4: `next_output_index` returns 1 on an empty directory and otherwise
the numerically highest existing chunk index (the lexicographically last
zero-padded filename); opening at an index holding an existing file
appends — counter initialized from its size, content untouched; if that
file is already at or over the bound, the first written span lands in a
brand-new chunk at the next index and the full chunk is untouched; and a
writer resumed through `next_output_index` over the files of an
interrupted run continues to the exact writer state and output of an
uninterrupted run over the same spans. -/
theorem writer_resume_spec :
    (next_output_index ([] : FS) = 1) ∧
    (∀ fs : FS, fs ≠ [] → (∀ q ∈ fs, q.1 < 100000) →
      next_output_index fs = max 1 (maxKey fs) ∧
      maxKey fs ∈ fs.map Prod.fst ∧ ∀ q ∈ fs, q.1 ≤ maxKey fs) ∧
    (∀ (fs : FS) (i B : Nat) (c : Bytes), fsGet fs i = some c →
      open_existing_or_new fs i B = (⟨i, c.length, B⟩, fs)) ∧
    (∀ (fs : FS) (i B : Nat) (c d : Bytes), 0 < B → fsGet fs i = some c →
      B ≤ c.length → 0 < d.length →
      ((open_existing_or_new fs i B).1.write_line
          (open_existing_or_new fs i B).2 d).1.index = i + 1 ∧
      fsGet ((open_existing_or_new fs i B).1.write_line
          (open_existing_or_new fs i B).2 d).2 i = some c ∧
      fsGet ((open_existing_or_new fs i B).1.write_line
          (open_existing_or_new fs i B).2 d).2 (i + 1) = some d) ∧
    (∀ (B : Nat) (ds1 ds2 : List Bytes),
      (∀ q ∈ (runFresh B ds1).2, q.1 < 100000) →
      runWriter (open_existing_or_new (runFresh B ds1).2
            (next_output_index (runFresh B ds1).2) B).1
          (open_existing_or_new (runFresh B ds1).2
            (next_output_index (runFresh B ds1).2) B).2 ds2
        = runFresh B (ds1 ++ ds2)) := by
  refine ⟨rfl, ?_, open_of_some, ?_, ?_⟩
  · intro fs hne hk
    exact ⟨next_output_index_eq fs hne hk, maxKey_mem fs hne, maxKey_ub fs⟩
  · intro fs i B c d hposB hget hB hd
    rw [open_of_some fs i B c hget]
    have hcond : B < c.length + d.length ∧ 0 < c.length := by omega
    have e : ChunkWriter.write_line ⟨i, c.length, B⟩ fs d
        = (⟨i + 1, d.length, B⟩, fsSet (fsSet fs (i + 1) []) (i + 1) d) := by
      simp only [ChunkWriter.write_line, ChunkWriter.rotate, if_pos hcond,
        fsAppend, fsGet_fsSet, if_pos rfl]
      simp
    rw [e]
    refine ⟨rfl, ?_, ?_⟩
    · rw [fsGet_fsSet, if_neg (by omega), fsGet_fsSet, if_neg (by omega)]
      exact hget
    · rw [fsGet_fsSet, if_pos rfl]
  · intro B ds1 ds2 hsmall
    have hLpos : 1 ≤ (chunksC B [] ds1).length :=
      List.length_pos.mpr (chunksC_ne_nil B ds1 [])
    have hlast : fsGet (runFresh B ds1).2 ((chunksC B [] ds1).length)
        = some (lastCur B [] ds1) := by
      rw [(runFresh_eq B ds1).2, if_pos hLpos]
      have h2 := chunksC_getLast B ds1 []
      rw [List.getLast?_eq_getElem?] at h2
      exact h2
    have hfne : (runFresh B ds1).2 ≠ [] := by
      intro he
      rw [he] at hlast
      exact absurd hlast (by
        show alookup ([] : FS) _ = some _ → False
        simp [alookup])
    have hnoi : next_output_index (runFresh B ds1).2 = (chunksC B [] ds1).length := by
      rw [next_output_index_eq _ hfne hsmall]
      have hmem := maxKey_mem _ hfne
      have hmsome : (fsGet (runFresh B ds1).2 (maxKey (runFresh B ds1).2)).isSome :=
        alookup_isSome_of_mem _ _ hmem
      rw [(runFresh_eq B ds1).2] at hmsome
      by_cases h1 : 1 ≤ maxKey (runFresh B ds1).2
      · rw [if_pos h1] at hmsome
        have hub : maxKey (runFresh B ds1).2 - 1 < (chunksC B [] ds1).length := by
          by_contra hcon
          rw [List.getElem?_eq_none (by omega)] at hmsome
          cases hmsome
        have hLsome : (fsGet (runFresh B ds1).2 ((chunksC B [] ds1).length)).isSome := by
          rw [hlast]
          rfl
        have hLmem : (chunksC B [] ds1).length ∈ (runFresh B ds1).2.map Prod.fst :=
          mem_of_alookup_isSome _ _ hLsome
        have hLle : (chunksC B [] ds1).length ≤ maxKey (runFresh B ds1).2 := by
          rcases List.mem_map.mp hLmem with ⟨q, hq, hqe⟩
          have := maxKey_ub _ q hq
          omega
        omega
      · rw [if_neg h1] at hmsome
        cases hmsome
    have hopen : open_existing_or_new (runFresh B ds1).2
        (next_output_index (runFresh B ds1).2) B = runFresh B ds1 := by
      rw [hnoi, open_of_some _ _ _ _ hlast]
      have hfst : (runFresh B ds1).1
          = ⟨(chunksC B [] ds1).length, (lastCur B [] ds1).length, B⟩ := by
        rw [(runFresh_eq B ds1).1]
        congr 1
        omega
      calc (⟨(chunksC B [] ds1).length, (lastCur B [] ds1).length, B⟩,
              (runFresh B ds1).2)
          = ((runFresh B ds1).1, (runFresh B ds1).2) := by rw [hfst]
        _ = runFresh B ds1 := Prod.mk.eta
    rw [hopen]
    have hsplit : runFresh B (ds1 ++ ds2)
        = runWriter (runFresh B ds1).1 (runFresh B ds1).2 ds2 := by
      show runWriter (open_existing_or_new [] 1 B).1
          (open_existing_or_new [] 1 B).2 (ds1 ++ ds2) = _
      rw [runWriter_append]
      rfl
    rw [hsplit]

/-- C4 witness: a concrete resume — run `[[1,2]]` with bound 3, reopen via
`next_output_index`, run `[[3,4],[5]]`: the writer state and output equal
the uninterrupted run. -/
theorem writer_resume_spec_witness :
    runWriter (open_existing_or_new (runFresh 3 [[1, 2]]).2
          (next_output_index (runFresh 3 [[1, 2]]).2) 3).1
        (open_existing_or_new (runFresh 3 [[1, 2]]).2
          (next_output_index (runFresh 3 [[1, 2]]).2) 3).2 [[3, 4], [5]]
      = runFresh 3 ([[1, 2]] ++ [[3, 4], [5]]) :=
  writer_resume_spec.2.2.2.2 3 [[1, 2]] [[3, 4], [5]] (by decide)

/-! ## C1: idempotence of a re-run -/

theorem one_le_next_output_index (fs : FS) : 1 ≤ next_output_index fs := by
  rw [next_output_index]
  cases lexMaxList (fs.map fun q => pad5 q.1) with
  | none => exact le_rfl
  | some nm => exact Nat.le_max_left 1 _

theorem process_nil (w : World) (st : StateDoc) (b : Bool)
    (hl : load_state w.loadRead w.renameOk = Except.ok (st, b))
    (he : w.inputs.isEmpty = true) :
    process w = Except.ok ⟨st, w.fs, w.stateFiles, 0, [], 0⟩ := by
  simp only [process, hl, he, if_true]

theorem process_cons (w : World) (st : StateDoc) (b : Bool)
    (hl : load_state w.loadRead w.renameOk = Except.ok (st, b))
    (hne : w.inputs.isEmpty = false) :
    process w = match runInputs w.stats w.reads
        ⟨st.processed, st.last_processed_mtime,
         (open_existing_or_new w.fs (next_output_index w.fs) CHUNK_BYTES).1,
         (open_existing_or_new w.fs (next_output_index w.fs) CHUNK_BYTES).2, 0, []⟩
        w.inputs with
      | Except.error e => Except.error e
      | Except.ok fin =>
        if w.saveOk then
          Except.ok ⟨⟨fin.processed, fin.last_mtime_seen⟩, fin.fs,
                     save_state ⟨fin.processed, fin.last_mtime_seen⟩ w.stateFiles,
                     fin.processed_count, fin.warnings, 1⟩
        else Except.error RunErr.saveError := by
  simp only [process, hl, hne, Bool.false_eq_true, if_false]

/-- C1 counterexample: `W1` holds one unchanged input whose gzip read
yields a line and then fails with an `OSError` in both runs.  The first
run completes successfully; the second run, over exactly the files the
first left behind and the same unchanged inputs, appends the same partial
line again: chunk 1 grows from one line to two. -/
theorem process_rerun_changes_chunk :
    ∃ r1 r2, process W1 = Except.ok r1 ∧ process W1b = Except.ok r2 ∧
      W1b.loadRead = StateFileRead.ok r1.state ∧ W1b.fs = r1.fs ∧
      W1b.stateFiles = r1.stateFiles ∧ W1b.inputs = W1.inputs ∧
      W1b.stats = W1.stats ∧ W1b.reads = W1.reads ∧
      r2.fs ≠ r1.fs :=
  ⟨⟨⟨[], 0⟩, [(1, [65, 10])], ⟨none, some ⟨[], 0⟩⟩, 0, ["dshield.log.1.gz"], 1⟩,
   ⟨⟨[], 0⟩, [(1, [65, 10, 65, 10])], ⟨none, some ⟨[], 0⟩⟩, 0, ["dshield.log.1.gz"], 1⟩,
   rfl, rfl, rfl, rfl, rfl, rfl, rfl, rfl, by decide⟩

/-- C1 amended: when additionally every discovered input's read runs to
completion (no partial decompression failures — the source re-appends a
failed input's partial lines on retry), a second run over unchanged
inputs, state and output directory changes no chunk file and no
`processed` entry, and the watermark stays equal (in particular it does
not decrease).  The run-2 world `w2` is the run-1 world with the state
file and output directory as run 1 left them; the side condition
`hkeys` keeps every chunk index inside the zero-padded filename width. -/
theorem process_idempotent_of_reads_ok (w w2 : World) (r1 : RunResult)
    (hok : ∀ p ∈ w.inputs, (w.reads p).2 = ReadOutcome.ok)
    (hkeys : ∀ q ∈ r1.fs, q.1 < 100000)
    (h1 : process w = Except.ok r1)
    (h2load : w2.loadRead = StateFileRead.ok r1.state)
    (h2inputs : w2.inputs = w.inputs)
    (h2stats : w2.stats = w.stats)
    (h2reads : w2.reads = w.reads)
    (h2fs : w2.fs = r1.fs)
    (h2sf : w2.stateFiles = r1.stateFiles)
    (h2save : w2.saveOk = w.saveOk) :
    ∃ r2, process w2 = Except.ok r2 ∧
      r2.fs = r1.fs ∧ r2.state.processed = r1.state.processed ∧
      r1.state.last_processed_mtime ≤ r2.state.last_processed_mtime := by
  cases hl : load_state w.loadRead w.renameOk with
  | error e =>
    rw [process, hl] at h1
    cases h1
  | ok stb =>
    obtain ⟨st, b⟩ := stb
    cases hi : w.inputs with
    | nil =>
      have he : w.inputs.isEmpty = true := by rw [hi]; rfl
      rw [process_nil w st b hl he] at h1
      injection h1 with h1
      subst h1
      refine ⟨⟨st, w.fs, w.stateFiles, 0, [], 0⟩, ?_, rfl, rfl, le_rfl⟩
      have hl2 : load_state w2.loadRead w2.renameOk = Except.ok (st, false) := by
        rw [h2load]
        rfl
      have he2 : w2.inputs.isEmpty = true := by rw [h2inputs, hi]; rfl
      rw [process_nil w2 st false hl2 he2, h2fs, h2sf]
    | cons p ps =>
      have hne : w.inputs.isEmpty = false := by rw [hi]; rfl
      rw [process_cons w st b hl hne] at h1
      obtain ⟨fin, hfin, hpres, hall, hmono⟩ :=
        runInputs_reads_ok w.stats w.reads w.inputs
          ⟨st.processed, st.last_processed_mtime,
           (open_existing_or_new w.fs (next_output_index w.fs) CHUNK_BYTES).1,
           (open_existing_or_new w.fs (next_output_index w.fs) CHUNK_BYTES).2, 0, []⟩
          hok
      rw [hfin] at h1
      cases hs : w.saveOk with
      | false =>
        rw [hs] at h1
        simp at h1
      | true =>
        rw [hs] at h1
        simp only [if_true] at h1
        injection h1 with h1
        subst h1
        -- the chunk file at the writer's opening index survives run 1
        have hidxsome : (fsGet fin.fs (next_output_index w.fs)).isSome :=
          hmono _ (open_fs_isSome w.fs (next_output_index w.fs) CHUNK_BYTES)
        have hfs_ne : fin.fs ≠ [] := by
          intro he
          rw [he] at hidxsome
          exact absurd hidxsome (by simp [fsGet, alookup])
        have hmem1 : next_output_index w.fs ∈ fin.fs.map Prod.fst :=
          mem_of_alookup_isSome _ _ hidxsome
        have hub : next_output_index w.fs ≤ maxKey fin.fs := by
          rcases List.mem_map.mp hmem1 with ⟨q, hq, hqe⟩
          have := maxKey_ub fin.fs q hq
          omega
        have hmk1 : 1 ≤ maxKey fin.fs :=
          le_trans (one_le_next_output_index w.fs) hub
        have hkeys' : ∀ q ∈ fin.fs, q.1 < 100000 := hkeys
        have hnoi2 : next_output_index fin.fs = maxKey fin.fs := by
          rw [next_output_index_eq fin.fs hfs_ne hkeys']
          omega
        obtain ⟨c2, hc2⟩ : ∃ c2, fsGet fin.fs (maxKey fin.fs) = some c2 :=
          Option.isSome_iff_exists.mp
            (alookup_isSome_of_mem _ _ (maxKey_mem fin.fs hfs_ne))
        have hopen2 : open_existing_or_new fin.fs (next_output_index fin.fs) CHUNK_BYTES
            = (⟨next_output_index fin.fs, c2.length, CHUNK_BYTES⟩, fin.fs) := by
          rw [hnoi2]
          exact open_of_some _ _ _ _ hc2
        -- the second run recognizes every input as duplicate or vanished
        have hdup2 : ∀ q ∈ w.inputs, w.stats q = none ∨ ∃ sig, w.stats q = some sig ∧
            alookup fin.processed q = some sig ∧ sig.mtime ≤ fin.last_mtime_seen := by
          intro q hq
          cases hsq : w.stats q with
          | none => exact Or.inl rfl
          | some sig =>
            right
            exact ⟨sig, rfl, (hall q hq sig hsq).1, (hall q hq sig hsq).2⟩
        have hl2 : load_state w2.loadRead w2.renameOk
            = Except.ok ((⟨fin.processed, fin.last_mtime_seen⟩ : StateDoc), false) := by
          rw [h2load]
          rfl
        have hne2 : w2.inputs.isEmpty = false := by rw [h2inputs, hi]; rfl
        have hp2 := process_cons w2 ⟨fin.processed, fin.last_mtime_seen⟩ false hl2 hne2
        rw [h2stats, h2reads, h2inputs, h2fs, h2sf, h2save, hs] at hp2
        have hrun2 : runInputs w.stats w.reads
            ⟨fin.processed, fin.last_mtime_seen,
             (open_existing_or_new fin.fs (next_output_index fin.fs) CHUNK_BYTES).1,
             (open_existing_or_new fin.fs (next_output_index fin.fs) CHUNK_BYTES).2, 0, []⟩
            w.inputs
            = Except.ok ⟨fin.processed, fin.last_mtime_seen,
               (open_existing_or_new fin.fs (next_output_index fin.fs) CHUNK_BYTES).1,
               (open_existing_or_new fin.fs (next_output_index fin.fs) CHUNK_BYTES).2, 0, []⟩ :=
          runInputs_all_dup w.stats w.reads w.inputs _ hdup2
        rw [hrun2] at hp2
        simp only [if_true] at hp2
        refine ⟨_, hp2, ?_, rfl, le_rfl⟩
        show (open_existing_or_new fin.fs (next_output_index fin.fs) CHUNK_BYTES).2 = fin.fs
        rw [hopen2]

/-- C1 witness: the fully successful run `W9` followed by the unchanged
re-run `W9b` leaves the chunk files, the processed map and the watermark
unchanged. -/
theorem process_idempotent_of_reads_ok_witness :
    ∃ r2, process W9b = Except.ok r2 ∧
      r2.fs = R9.fs ∧ r2.state.processed = R9.state.processed ∧
      R9.state.last_processed_mtime ≤ r2.state.last_processed_mtime :=
  process_idempotent_of_reads_ok W9 W9b R9 (by decide) (by decide) rfl rfl
    rfl rfl rfl rfl rfl rfl

end DshieldMerge
